import Mathlib

/-!
Verification development for the handwritten-music-recognition (OMR) pipeline:
image loading, staff-line detection (`staff_detector.py`), symbol detection and
non-maximum suppression (`symbol_detector.py`), and score reconstruction
(`notation_converter.py`).

Python floats are modelled as exact rationals (`ℚ`), Python ints as `ℤ`/`ℕ`,
Python lists as `List`, raised exceptions as `Except PyErr`.  Mutation of
`self.current_score` and of the list passed to `non_max_suppression` is made
explicit by returning the post-call state of the mutated object.

The rational helpers below (`qadd`, `qsub`, `qmul`, `qdiv`, `qofInt`, `qofNat`)
compute with `mkRat`, so that concrete runs of the embedded functions reduce
inside the kernel; the bridge lemmas identify them with the field operations
of `ℚ`, which the abstract proofs use.
-/

namespace OMR

/-! ### Computable rational arithmetic and its bridge lemmas -/

/-- Addition on `ℚ` via `mkRat` (kernel-reducible). -/
def qadd (a b : ℚ) : ℚ := mkRat (a.num * (b.den : ℤ) + b.num * (a.den : ℤ)) (a.den * b.den)

/-- Negation-based subtraction on `ℚ` (kernel-reducible). -/
def qsub (a b : ℚ) : ℚ := qadd a (-b)

/-- Multiplication on `ℚ` via `mkRat` (kernel-reducible). -/
def qmul (a b : ℚ) : ℚ := mkRat (a.num * b.num) (a.den * b.den)

/-- Inverse on `ℚ` via `mkRat` (kernel-reducible); `qinv 0 = 0`. -/
def qinv (b : ℚ) : ℚ :=
  if 0 ≤ b.num then mkRat (b.den : ℤ) b.num.toNat
  else mkRat (-(b.den : ℤ)) b.num.natAbs

/-- Division on `ℚ` via `mkRat` (kernel-reducible); division by `0` gives `0`,
matching Mathlib's convention (the embedded code never divides by zero). -/
def qdiv (a b : ℚ) : ℚ := qmul a (qinv b)

/-- Embedding of an integer into `ℚ`, kernel-reducible. -/
def qofInt (n : ℤ) : ℚ := mkRat n 1

/-- Embedding of a natural number into `ℚ`, kernel-reducible. -/
def qofNat (n : ℕ) : ℚ := mkRat (n : ℤ) 1

theorem qofInt_eq (n : ℤ) : qofInt n = (n : ℚ) := by
  simp [qofInt]

theorem qofNat_eq (n : ℕ) : qofNat n = (n : ℚ) := by
  simp [qofNat]

theorem qadd_eq (a b : ℚ) : qadd a b = a + b := by
  have ha : ((a.den : ℤ)) ≠ 0 := Int.natCast_ne_zero.mpr a.den_nz
  have hb : ((b.den : ℤ)) ≠ 0 := Int.natCast_ne_zero.mpr b.den_nz
  rw [qadd, Rat.mkRat_eq_divInt]
  conv_rhs => rw [← Rat.num_divInt_den a, ← Rat.num_divInt_den b]
  rw [Rat.divInt_add_divInt _ _ ha hb]
  push_cast
  rfl

theorem qsub_eq (a b : ℚ) : qsub a b = a - b := by
  rw [qsub, qadd_eq, sub_eq_add_neg]

theorem qmul_eq (a b : ℚ) : qmul a b = a * b := by
  rw [qmul, Rat.mkRat_eq_divInt]
  conv_rhs => rw [← Rat.num_divInt_den a, ← Rat.num_divInt_den b]
  rw [Rat.divInt_mul_divInt']
  push_cast
  rfl

theorem qinv_eq (b : ℚ) : qinv b = b⁻¹ := by
  rw [qinv, Rat.inv_def']
  by_cases h : 0 ≤ b.num
  · rw [if_pos h, Rat.mkRat_eq_divInt]
    have : ((b.num.toNat : ℤ)) = b.num := Int.toNat_of_nonneg h
    rw [this]
  · rw [if_neg h, Rat.mkRat_eq_divInt]
    have : ((b.num.natAbs : ℤ)) = -b.num := by omega
    rw [this, Rat.divInt_neg, neg_neg]

theorem qdiv_eq (a b : ℚ) : qdiv a b = a / b := by
  rw [qdiv, qmul_eq, qinv_eq, div_eq_mul_inv]

/-! ### Python string operations

Implemented structurally on `List Char` so that concrete runs reduce in the
kernel (the library versions `String.replace`, `String.splitOn`,
`String.toInt?` use well-founded recursion and do not).  Semantics follow
Python: `str.replace` replaces every occurrence left to right without
overlap, `str.split(sep)` keeps empty pieces, `int(s)` accepts an optional
sign followed by digits (Python additionally strips whitespace and allows
digit-group underscores; neither form occurs in this code's inputs). -/

/-- Auxiliary loop of `pyReplace`; the fuel argument starts at the length of
the subject and only makes the recursion structural, it is never exhausted. -/
def replChars (pat rep : List Char) : ℕ → List Char → List Char
  | _, [] => []
  | 0, l => l
  | f + 1, c :: rest =>
    if pat.isPrefixOf (c :: rest) then
      rep ++ replChars pat rep f (List.drop (pat.length - 1) rest)
    else
      c :: replChars pat rep f rest

/-- Python `s.replace(pat, rep)` (all occurrences, left to right). -/
def pyReplace (s pat rep : String) : String :=
  ⟨replChars pat.data rep.data s.data.length s.data⟩

/-- Auxiliary loop of `pySplit`; fuel as in `replChars`. -/
def splitChars (sep : List Char) : ℕ → List Char → List Char → List (List Char)
  | _, acc, [] => [acc.reverse]
  | 0, acc, l => [acc.reverse ++ l]
  | f + 1, acc, c :: rest =>
    if sep.isPrefixOf (c :: rest) then
      acc.reverse :: splitChars sep f [] (List.drop (sep.length - 1) rest)
    else
      splitChars sep f (c :: acc) rest

/-- Python `s.split(sep)` with an explicit non-empty separator. -/
def pySplit (s sep : String) : List String :=
  (splitChars sep.data s.data.length [] s.data).map fun l => ⟨l⟩

/-- Python `s.endswith(suffix)`. -/
def pyEndsWith (s suff : String) : Bool :=
  suff.data.isSuffixOf s.data

/-- Python `s.startswith(...)`. -/
def pyStartsWith (s p : String) : Bool :=
  p.data.isPrefixOf s.data

/-- Python `sub in s` (substring containment), via split. -/
def pyContains (s sub : String) : Bool :=
  1 < (pySplit s sub).length

/-- Digits of a decimal literal. -/
def digitsVal : List Char → Option ℕ
  | [] => none
  | [c] => if '0' ≤ c ∧ c ≤ '9' then some (c.toNat - '0'.toNat) else none
  | c :: rest =>
    if '0' ≤ c ∧ c ≤ '9' then
      match digitsVal rest with
      | some v => some ((c.toNat - '0'.toNat) * 10 ^ rest.length + v)
      | none => none
    else none

/-- Python `int(s)`: optional sign then a non-empty run of digits; `none`
models the `ValueError` that `int` raises on anything else. -/
def pyInt? (s : String) : Option ℤ :=
  match s.data with
  | '-' :: rest => (digitsVal rest).map fun v => -(v : ℤ)
  | '+' :: rest => (digitsVal rest).map fun v => (v : ℤ)
  | l => (digitsVal l).map fun v => (v : ℤ)

/-- Python `int(x)` on a float: truncation toward zero. -/
def pyTrunc (q : ℚ) : ℤ :=
  if 0 ≤ q then ⌊q⌋ else ⌈q⌉

/-! ### Stable sorting

Python's `list.sort` is a stable sort; a stable sort by a key is a unique
function of the input, so this structurally recursive insertion sort computes
exactly the list that `list.sort(key=..., reverse=...)` produces once `le` is
instantiated with the corresponding (total, transitive) comparison. -/

/-- Insert `x` after every element `y` of an already sorted list with
`le y x`; keeps equal elements in input order (stability). -/
def insStable (le : α → α → Bool) (x : α) : List α → List α
  | [] => [x]
  | y :: l => if le y x then y :: insStable le x l else x :: y :: l

/-- Stable sort by the boolean comparison `le`. -/
def stableSort (le : α → α → Bool) (l : List α) : List α :=
  l.foldl (fun acc x => insStable le x acc) []

theorem insStable_perm (le : α → α → Bool) (x : α) (l : List α) :
    List.Perm (insStable le x l) (x :: l) := by
  induction l with
  | nil => rfl
  | cons y t ih =>
    by_cases h : le y x
    · simpa [insStable, h] using ((ih.cons y).trans (List.Perm.swap x y t))
    · simp [insStable, h]

theorem insStable_sorted (le : α → α → Bool)
    (htot : ∀ a b, le a b || le b a)
    (htrans : ∀ a b c, le a b → le b c → le a c)
    (x : α) (l : List α) (hl : l.Pairwise fun a b => le a b) :
    (insStable le x l).Pairwise fun a b => le a b := by
  induction l with
  | nil => simp [insStable]
  | cons y t ih =>
    rcases List.pairwise_cons.mp hl with ⟨hy, ht⟩
    by_cases h : le y x
    · have hrec := ih ht
      rw [insStable, if_pos h]
      refine List.pairwise_cons.mpr ⟨?_, hrec⟩
      intro b hb
      rcases List.mem_cons.mp ((insStable_perm le x t).mem_iff.mp hb) with rfl | hb
      · exact h
      · exact hy b hb
    · have hxy : le x y := by
        rcases Bool.or_eq_true_iff.mp (htot y x) with h1 | h1
        · exact absurd h1 h
        · exact h1
      rw [insStable, if_neg h]
      refine List.pairwise_cons.mpr ⟨?_, hl⟩
      intro b hb
      rcases List.mem_cons.mp hb with rfl | hb
      · exact hxy
      · exact htrans x y b hxy (hy b hb)

theorem stableSort_perm (le : α → α → Bool) (l : List α) :
    List.Perm (stableSort le l) l := by
  suffices h : ∀ (l : List α) (acc : List α),
      List.Perm (l.foldl (fun acc x => insStable le x acc) acc) (acc ++ l) by
    simpa using h l []
  intro l
  induction l with
  | nil => simp
  | cons x t ih =>
    intro acc
    have h1 : (x :: t).foldl (fun acc x => insStable le x acc) acc
        = t.foldl (fun acc x => insStable le x acc) (insStable le x acc) := rfl
    have h3 : List.Perm (insStable le x acc ++ t) (x :: (acc ++ t)) :=
      (insStable_perm le x acc).append_right t
    have h4 : List.Perm (x :: (acc ++ t)) (acc ++ x :: t) := List.perm_middle.symm
    rw [h1]
    exact (ih (insStable le x acc)).trans (h3.trans h4)

theorem stableSort_sorted (le : α → α → Bool) (htot : ∀ a b, le a b || le b a)
    (htrans : ∀ a b c, le a b → le b c → le a c) (l : List α) :
    (stableSort le l).Pairwise fun a b => le a b := by
  suffices h : ∀ (l acc : List α), acc.Pairwise (fun a b => le a b) →
      (l.foldl (fun acc x => insStable le x acc) acc).Pairwise fun a b => le a b by
    exact h l [] List.Pairwise.nil
  intro l
  induction l with
  | nil =>
    intro acc hacc
    simpa using hacc
  | cons x t ih =>
    intro acc hacc
    exact ih _ (insStable_sorted le htot htrans x acc hacc)

/-! ### Symbol detector (`music_recognition/models/symbol_detector.py`) -/

/-- A bounding box `(x, y, w, h)` in image coordinates. -/
structure Bbox where
  x : ℤ
  y : ℤ
  w : ℤ
  h : ℤ
deriving DecidableEq

/-- One detection dictionary
`{'symbol': ..., 'confidence': ..., 'bbox': ..., 'position': ...}`. -/
structure Detection where
  symbol : String
  confidence : ℚ
  bbox : Bbox
  position : ℤ × ℤ
deriving DecidableEq

/-- Intersection-over-union of two boxes, as computed inside
`SymbolDetector.non_max_suppression` (lines 140–156): intersection corner
coordinates via `max`/`min`, areas clamped at `0`, and
`iou = inter_area / union_area if union_area > 0 else 0`. -/
def iou (box1 box2 : Bbox) : ℚ :=
  let xi1 := max box1.x box2.x
  let yi1 := max box1.y box2.y
  let xi2 := min (box1.x + box1.w) (box2.x + box2.w)
  let yi2 := min (box1.y + box1.h) (box2.y + box2.h)
  let inter_area := max 0 (xi2 - xi1) * max 0 (yi2 - yi1)
  let union_area := box1.w * box1.h + box2.w * box2.h - inter_area
  if 0 < union_area then mkRat inter_area union_area.toNat else 0

/-- The `while detections:` loop of `non_max_suppression`: pop the
highest-confidence remaining detection, keep it, and retain only the
remaining detections whose IoU with it is strictly below the threshold
(`if iou < iou_threshold`).  The fuel argument makes the recursion
structural; it starts at the list length and is never exhausted. -/
def nmsLoop (iou_threshold : ℚ) : ℕ → List Detection → List Detection
  | _, [] => []
  | 0, _ => []
  | fuel + 1, best :: rest =>
    best :: nmsLoop iou_threshold fuel
      (rest.filter fun det => iou best.bbox det.bbox < iou_threshold)

/-- `detections.sort(key=lambda d: d['confidence'], reverse=True)`:
stable sort by descending confidence. -/
def sortByConfDesc (detections : List Detection) : List Detection :=
  stableSort (fun a b => b.confidence ≤ a.confidence) detections

/-- `SymbolDetector.non_max_suppression(detections, iou_threshold)`.

The first component is the returned `kept` list.  The second component is
the state of the caller's `detections` list object after the call: the
method sorts that list in place (`detections.sort(...)`) and then pops its
first element (`detections.pop(0)`); all later loop iterations rebind the
local name to freshly built `filtered` lists, so the caller's object is
left holding the descending-sorted tail.  The empty list is returned
unsorted and unpopped (`if not detections: return []`). -/
def non_max_suppression (detections : List Detection) (iou_threshold : ℚ) :
    List Detection × List Detection :=
  if detections.isEmpty then ([], detections)
  else
    let sorted := sortByConfDesc detections
    (nmsLoop iou_threshold sorted.length sorted, sorted.tail)

/-- `MusicSymbolCNN.SYMBOL_CLASSES` (cnn_classifier.py lines 51–60). -/
def SYMBOL_CLASSES : List String :=
  ["treble_clef", "bass_clef", "alto_clef",
   "whole_note", "half_note", "quarter_note", "eighth_note", "sixteenth_note",
   "whole_rest", "half_rest", "quarter_rest", "eighth_rest", "sixteenth_rest",
   "sharp", "flat", "natural",
   "time_2_4", "time_3_4", "time_4_4", "time_6_8",
   "barline", "double_barline",
   "dot", "beam", "stem",
   "background"]

/-- `MusicSymbolCNN.get_class_name`: index into `SYMBOL_CLASSES` with an
`"unknown"` fallback.  The index comes from `argmax`, hence is a natural
number, so the Python guard `0 <= class_idx` is automatic. -/
def get_class_name (class_idx : ℕ) : String :=
  if class_idx < SYMBOL_CLASSES.length then SYMBOL_CLASSES.getD class_idx "unknown"
  else "unknown"

/-- `SymbolDetector.detect_symbols`, per-box loop body.  The trained CNN is
the spec's external black-box collaborator, so it enters as the oracle
`predict` mapping a crop's bounding box to `(argmax class index, confidence
of that class)`; `cropNonempty` abstracts the `symbol_img.size == 0` test
(which depends only on the image dimensions and the box).  A box whose crop
is empty is skipped (`continue`); otherwise the detection is appended iff
`confidence >= self.confidence_threshold` and the class name is not
`'background'`. -/
def detectLoop (cropNonempty : Bbox → Bool) (predict : Bbox → ℕ × ℚ)
    (confidence_threshold : ℚ) : List Bbox → List Detection
  | [] => []
  | bbox :: rest =>
    if cropNonempty bbox then
      let pred_idx := (predict bbox).1
      let confidence := (predict bbox).2
      if confidence_threshold ≤ confidence then
        let symbol_name := get_class_name pred_idx
        if symbol_name ≠ "background" then
          { symbol := symbol_name, confidence := confidence, bbox := bbox,
            position := (bbox.x + bbox.w.fdiv 2, bbox.y + bbox.h.fdiv 2) } ::
            detectLoop cropNonempty predict confidence_threshold rest
        else detectLoop cropNonempty predict confidence_threshold rest
      else detectLoop cropNonempty predict confidence_threshold rest
    else detectLoop cropNonempty predict confidence_threshold rest

/-- `SymbolDetector.detect_symbols`: run the loop over the candidate boxes,
then `detections.sort(key=lambda d: d['position'][0])` (stable ascending
sort by horizontal position). -/
def detect_symbols (cropNonempty : Bbox → Bool) (predict : Bbox → ℕ × ℚ)
    (confidence_threshold : ℚ) (bounding_boxes : List Bbox) : List Detection :=
  stableSort (fun a b => a.position.1 ≤ b.position.1)
    (detectLoop cropNonempty predict confidence_threshold bounding_boxes)

/-! ### Notation reconstruction
(`music_recognition/postprocessing/notation_converter.py`) -/

/-- A raised Python exception, by class name and message. -/
structure PyErr where
  name : String
  msg : String
deriving DecidableEq

instance {ε α : Type} [DecidableEq ε] [DecidableEq α] : DecidableEq (Except ε α) := fun x y =>
  match x, y with
  | .ok a, .ok b => if h : a = b then isTrue (by rw [h]) else isFalse (by simp [h])
  | .error a, .error b => if h : a = b then isTrue (by rw [h]) else isFalse (by simp [h])
  | .ok _, .error _ => isFalse (by simp)
  | .error _, .ok _ => isFalse (by simp)

/-- An element of a measure: the dicts built at lines 91–96 (notes) and
100–104 (rests) of `notation_converter.py`. -/
inductive Entry where
  | note (pitch : String) (duration : ℚ) (position : ℤ × ℤ)
  | rest (duration : ℚ) (position : ℤ × ℤ)
deriving DecidableEq

/-- `MusicScore` (lines 10–23): measures plus header fields. -/
structure MusicScore where
  measures : List (List Entry)
  time_signature : ℤ × ℤ
  key_signature : ℤ
  clef : String
  tempo : ℤ
deriving DecidableEq

/-- `MusicScore.__init__`: empty measures, 4/4, key 0, treble clef,
tempo 120. -/
def MusicScore.init : MusicScore := ⟨[], (4, 4), 0, "treble", 120⟩

/-- `NotationConverter.NOTE_DURATIONS` (lines 39–45), as a lookup. -/
def NOTE_DURATIONS : String → Option ℚ
  | "whole_note" => some (mkRat 4 1)
  | "half_note" => some (mkRat 2 1)
  | "quarter_note" => some (mkRat 1 1)
  | "eighth_note" => some (mkRat 1 2)
  | "sixteenth_note" => some (mkRat 1 4)
  | _ => none

/-- `NotationConverter.REST_DURATIONS` (lines 47–53), as a lookup. -/
def REST_DURATIONS : String → Option ℚ
  | "whole_rest" => some (mkRat 4 1)
  | "half_rest" => some (mkRat 2 1)
  | "quarter_rest" => some (mkRat 1 1)
  | "eighth_rest" => some (mkRat 1 2)
  | "sixteenth_rest" => some (mkRat 1 4)
  | _ => none

/-- The treble pitch table of `_estimate_pitch` (line 138), top staff line
`F5` down to `C4` in descending order of staff position. -/
def treble_pitches : List String :=
  ["F5", "E5", "D5", "C5", "B4", "A4", "G4", "F4", "E4", "D4", "C4"]

/-- The `line_positions` grid of `_estimate_pitch` (lines 140–145): each
staff line followed by the half-line ("space") midpoint to the next line. -/
def line_positions : List ℤ → List ℚ
  | [] => []
  | [a] => [qofInt a]
  | a :: b :: rest => qofInt a :: mkRat (a + b) 2 :: line_positions (b :: rest)

/-- The argmin loop of `_estimate_pitch` (lines 147–154): walk the grid
carrying `(closest_idx, min_dist)` and update on strict improvement, so the
first index attaining the minimum wins. -/
def scanMin (y : ℚ) : List ℚ → ℕ → ℕ × ℚ → ℕ × ℚ
  | [], _, acc => acc
  | pos :: rest, i, acc =>
    if |qsub y pos| < acc.2 then scanMin y rest (i + 1) (i, |qsub y pos|)
    else scanMin y rest (i + 1) acc

/-- Index of the grid position closest to `y` (first minimum), started like
the source with `closest_idx = 0` and `min_dist = abs(y - line_positions[0])`. -/
def closest_idx (y : ℚ) : List ℚ → ℕ
  | [] => 0
  | pos :: rest => (scanMin y (pos :: rest) 0 (0, |qsub y pos|)).1

/-- `NotationConverter._estimate_pitch` (lines 118–159).  Works on the FIRST
staff group `staff_positions[0]`; returns the fallback pitch `'C4'` when
there are no staff groups, the first group is empty, or it has fewer than 5
lines, and also when the closest-grid index falls outside the treble table.
The source also computes a `staff_space` local that is never used; it is
omitted here. -/
def estimate_pitch (y_position : ℤ) (staff_positions : List (List ℤ)) : String :=
  match staff_positions with
  | [] => "C4"
  | staff :: _ =>
    if staff.isEmpty then "C4"
    else if staff.length < 5 then "C4"
    else
      let lp := line_positions staff
      let ci := closest_idx (qofInt y_position) lp
      if ci < treble_pitches.length then treble_pitches.getD ci "C4"
      else "C4"

/-- Distance from `y` to the closest line of a staff group (`none` for an
empty group).  Used only by `estimate_pitch_nearest` below. -/
def staff_min_dist (y : ℚ) : List ℤ → Option ℚ
  | [] => none
  | a :: rest =>
    match staff_min_dist y rest with
    | none => some |qsub y (qofInt a)|
    | some m => some (min |qsub y (qofInt a)| m)

/-- First staff group attaining the minimal distance from `y` to any of its
lines.  Used only by `estimate_pitch_nearest` below. -/
def nearestStaff (y : ℚ) (staff_positions : List (List ℤ)) : Option (List ℤ) :=
  (staff_positions.foldl
    (fun acc s =>
      match staff_min_dist y s with
      | none => acc
      | some d =>
        match acc with
        | none => some (s, d)
        | some (bs, bd) => if d < bd then some (s, d) else some (bs, bd))
    none).map Prod.fst

/-- Follows the SPEC's words (§4.4) rather than the source, for comparison
with `estimate_pitch`: "Pitch is estimated from the vertical center of the
detection relative to the NEAREST staff's line/space grid", with the same
line/half-line grid, closest-position rule and treble table, and the `'C4'`
fallback when no staff reference is available. -/
def estimate_pitch_nearest (y_position : ℤ) (staff_positions : List (List ℤ)) : String :=
  match nearestStaff (qofInt y_position) staff_positions with
  | none => "C4"
  | some staff =>
    if staff.length < 5 then "C4"
    else
      let lp := line_positions staff
      let ci := closest_idx (qofInt y_position) lp
      if ci < treble_pitches.length then treble_pitches.getD ci "C4"
      else "C4"

/-- `symbol.replace('_clef', '')` (line 76). -/
def clef_of (symbol : String) : String := pyReplace symbol "_clef" ""

/-- First pass of `symbols_to_score` (lines 72–81): scan the whole stream,
`_clef`-suffixed symbols set the clef, `time_`-prefixed symbols that split
into exactly two parts set the time signature via `int(..)`; a part that is
not an integer literal makes `int` raise `ValueError`. -/
def pass1 : List Detection → MusicScore → Except PyErr MusicScore
  | [], score => .ok score
  | det :: rest, score =>
    if pyEndsWith det.symbol "_clef" then
      pass1 rest { score with clef := clef_of det.symbol }
    else if pyStartsWith det.symbol "time_" then
      match pySplit (pyReplace det.symbol "time_" "") "_" with
      | [p1, p2] =>
        match pyInt? p1, pyInt? p2 with
        | some n, some m => pass1 rest { score with time_signature := (n, m) }
        | _, _ => .error ⟨"ValueError", "invalid literal for int() with base 10"⟩
      | _ => pass1 rest score
    else pass1 rest score

/-- Note-symbol test of line 89: `'note' in symbol and symbol in
self.NOTE_DURATIONS`. -/
def isNoteSym (s : String) : Bool := pyContains s "note" && (NOTE_DURATIONS s).isSome

/-- Rest-symbol test of line 99. -/
def isRestSym (s : String) : Bool := pyContains s "rest" && (REST_DURATIONS s).isSome

/-- Barline test of line 107: `symbol in ['barline', 'double_barline']`. -/
def isBarline (s : String) : Bool := s = "barline" || s = "double_barline"

/-- Second pass of `symbols_to_score` (lines 83–113): accumulate note/rest
entries into `current_measure`; a barline appends the pending measure to the
score ONLY when it is non-empty (`if current_measure:` at line 108); at the
end of the stream a non-empty pending measure is flushed (lines 112–113). -/
def process_measures (staff_positions : List (List ℤ)) :
    List Detection → List Entry → MusicScore → MusicScore
  | [], current_measure, score =>
    if current_measure.isEmpty then score
    else { score with measures := score.measures ++ [current_measure] }
  | det :: rest, current_measure, score =>
    let y_center := det.bbox.y + det.bbox.h.fdiv 2
    if isNoteSym det.symbol then
      process_measures staff_positions rest
        (current_measure ++
          [Entry.note (estimate_pitch y_center staff_positions)
            ((NOTE_DURATIONS det.symbol).getD 0) det.position])
        score
    else if isRestSym det.symbol then
      process_measures staff_positions rest
        (current_measure ++ [Entry.rest ((REST_DURATIONS det.symbol).getD 0) det.position])
        score
    else if isBarline det.symbol then
      if current_measure.isEmpty then
        process_measures staff_positions rest current_measure score
      else
        process_measures staff_positions rest []
          { score with measures := score.measures ++ [current_measure] }
    else
      process_measures staff_positions rest current_measure score

/-- `NotationConverter.symbols_to_score` (lines 59–116): a fresh
`MusicScore()`, the clef/time-signature pass over the whole stream, then the
measure-building pass.  An `int()` failure in the first pass propagates as
the raised `ValueError`. -/
def symbols_to_score (detections : List Detection)
    (staff_positions : List (List ℤ)) : Except PyErr MusicScore :=
  match pass1 detections MusicScore.init with
  | .error e => .error e
  | .ok score => .ok (process_measures staff_positions detections [] score)

/-- `symbols_to_score` viewed as the method of a `NotationConverter` object:
the explicit state is the `self.current_score` attribute, the result pairs
the returned score with the attribute's post-call value (line 115 assigns
`self.current_score = score`; on an exception the attribute keeps its old
value, which no claim concerns). -/
def symbols_to_score_method (_current_score : MusicScore)
    (detections : List Detection) (staff_positions : List (List ℤ)) :
    Except PyErr (MusicScore × MusicScore) :=
  match symbols_to_score detections staff_positions with
  | .error e => .error e
  | .ok score => .ok (score, score)

/-- Clef carried by the LAST `_clef`-suffixed detection of the stream, if
any (the claim's reading of the first pass). -/
def lastClefSpec : List Detection → Option String
  | [] => none
  | det :: rest =>
    match lastClefSpec rest with
    | some c => some c
    | none => if pyEndsWith det.symbol "_clef" then some (clef_of det.symbol) else none

/-- The time signature a symbol denotes, when it is a well-formed
`time_N_M` symbol: `time_`-prefixed, splitting into exactly two integer
parts.  A `_clef`-suffixed symbol is consumed by the clef branch first and
therefore never read as a time signature. -/
def timeOf (symbol : String) : Option (ℤ × ℤ) :=
  if pyEndsWith symbol "_clef" then none
  else if pyStartsWith symbol "time_" then
    match pySplit (pyReplace symbol "time_" "") "_" with
    | [p1, p2] =>
      match pyInt? p1, pyInt? p2 with
      | some n, some m => some (n, m)
      | _, _ => none
    | _ => none
  else none

/-- Time signature of the LAST well-formed time-signature detection of the
stream, if any (the claim's reading of the first pass). -/
def lastTimeSpec : List Detection → Option (ℤ × ℤ)
  | [] => none
  | det :: rest =>
    match lastTimeSpec rest with
    | some t => some t
    | none => timeOf det.symbol

/-- Number of measures the reconstruction emits: a counter over the stream
tracking only whether the pending measure is non-empty; a barline counts
exactly when the pending measure is non-empty, and a final non-empty
pending measure counts once more. -/
def measure_count_from : List Detection → Bool → ℕ
  | [], pending => if pending then 1 else 0
  | det :: rest, pending =>
    if isNoteSym det.symbol || isRestSym det.symbol then
      measure_count_from rest true
    else if isBarline det.symbol then
      if pending then 1 + measure_count_from rest false
      else measure_count_from rest false
    else measure_count_from rest pending

/-- Measure count of a stream, starting with an empty pending measure. -/
def measure_count (detections : List Detection) : ℕ :=
  measure_count_from detections false

/-- Number of barline / double-barline detections in a stream. -/
def barline_count (detections : List Detection) : ℕ :=
  (detections.filter fun det => isBarline det.symbol).length

/-! ### Staff detection (`music_recognition/preprocessing/staff_detector.py`) -/

/-- `np.sum(image, axis=1)`: row sums of the (binary) image. -/
def horizontal_projection (image : List (List ℕ)) : List ℕ :=
  image.map List.sum

/-- `np.max` over the projection (the projection is non-empty whenever this
is reached, and its entries are non-negative). -/
def maxNat (l : List ℕ) : ℕ := l.foldl max 0

/-- The peak-finding state machine of `find_staff_positions` (lines 75–85):
walk the projection with `(index, in_line, line_start)`; entering a
super-threshold run records its start, leaving it emits the run's midpoint
`(line_start + i) // 2`.  A run still open at the end of the projection is
not emitted, exactly as in the source. -/
def find_lines (threshold : ℚ) : List ℕ → ℕ → Bool → ℕ → List ℕ
  | [], _, _, _ => []
  | val :: rest, i, in_line, line_start =>
    if threshold < qofNat val ∧ in_line = false then
      find_lines threshold rest (i + 1) true i
    else if qofNat val ≤ threshold ∧ in_line = true then
      ((line_start + i) / 2) :: find_lines threshold rest (i + 1) false line_start
    else
      find_lines threshold rest (i + 1) in_line line_start

/-- The 4-member repair (lines 110–115 and 123–127): append a 5th line at
`int(current_group[-1] + avg_spacing)` where
`avg_spacing = (current_group[-1] - current_group[0]) / 4`. -/
def repair4 (group : List ℤ) : List ℤ :=
  let avg_spacing : ℚ := qdiv (qofInt (group.getLastD 0 - group.headD 0)) (qofInt 4)
  group ++ [pyTrunc (qadd (qofInt (group.getLastD 0)) avg_spacing)]

/-- Closing a candidate group (lines 106–118 and 120–127): exactly 5 lines
are kept as-is, exactly 4 lines are repaired to 5, anything else is
dropped. -/
def close_group (current : List ℤ) (groups : List (List ℤ)) : List (List ℤ) :=
  if current.length = 5 then groups ++ [current]
  else if current.length = 4 then groups ++ [repair4 current]
  else groups

/-- The grouping loop of `find_staff_positions` (lines 95–118): a line joins
the current group if its spacing from the group's last member is below
`max_line_spacing` and the group has fewer than 5 members; otherwise the
current group is closed and a new group starts at the line. -/
def group_lines (max_line_spacing : ℚ) :
    List ℤ → List (List ℤ) → List ℤ → List (List ℤ) × List ℤ
  | [], groups, current => (groups, current)
  | pos :: rest, groups, current =>
    match current with
    | [] => group_lines max_line_spacing rest groups [pos]
    | _ =>
      if qofInt (pos - current.getLastD 0) < max_line_spacing ∧ current.length < 5 then
        group_lines max_line_spacing rest groups (current ++ [pos])
      else
        group_lines max_line_spacing rest (close_group current groups) [pos]

/-- Consecutive spacings of a group (line 134). -/
def spacings (group : List ℤ) : List ℤ :=
  (group.zip group.tail).map fun p => p.2 - p.1

/-- Mean spacing of a group (line 135). -/
def avg_spacing (group : List ℤ) : ℚ :=
  qdiv (qofInt (spacings group).sum) (qofNat (spacings group).length)

/-- The validation predicate (lines 131–139): exactly 5 lines and every
spacing strictly within 50% of the group's average spacing. -/
def validate_group (group : List ℤ) : Bool :=
  (group.length == 5) &&
    (spacings group).all fun s =>
      decide (|qsub (qofInt s) (avg_spacing group)| < qmul (avg_spacing group) (mkRat 1 2))

/-- `StaffDetector.find_staff_positions` (lines 52–141), from the row
projection on: threshold at 30% of the projection's peak, find line
midpoints, group them greedily (`max_line_spacing = staff_space_height *
2.5`), close the trailing group, and keep the validated groups.  `np.max`
of an empty projection raises `ValueError`, modelled by the error case. -/
def find_staff_positions (staff_space_height : ℤ) (image : List (List ℕ)) :
    Except PyErr (List (List ℤ)) :=
  let projection := horizontal_projection image
  if projection.isEmpty then
    .error ⟨"ValueError", "zero-size array to reduction operation maximum"⟩
  else
    let threshold := qmul (qofNat (maxNat projection)) (mkRat 3 10)
    let linePos := (find_lines threshold projection 0 false 0).map fun n => (n : ℤ)
    let max_line_spacing := qmul (qofInt staff_space_height) (mkRat 5 2)
    let grouped := group_lines max_line_spacing linePos [] []
    let staff_groups := close_group grouped.2 grouped.1
    .ok (staff_groups.filter validate_group)

/-! ### Image loading (`music_recognition/preprocessing/image_processor.py`) -/

/-- `ImagePreprocessor.load_image` (lines 22–35): `cv2.imread` is the
filesystem/decoder oracle `imread` (returning `none` where `cv2.imread`
returns `None` for an unreadable or corrupt file); on `None` the method
raises `ValueError` with the message of line 34. -/
def load_image (imread : String → Option (List (List ℕ))) (image_path : String) :
    Except PyErr (List (List ℕ)) :=
  match imread image_path with
  | none => .error ⟨"ValueError", "Could not load image from " ++ image_path⟩
  | some image => .ok image

/-- `ImagePreprocessor.preprocess` (lines 154–175): load the image, then run
the remaining stages (grayscale, binarize, denoise, deskew, normalize) —
abstracted as the pure `stages` function since no claim concerns their
numerics, only that they run strictly after a successful load. -/
def preprocess (imread : String → Option (List (List ℕ)))
    (stages : List (List ℕ) → List (List ℕ)) (image_path : String) :
    Except PyErr (List (List ℕ)) :=
  match load_image imread image_path with
  | .error e => .error e
  | .ok image => .ok (stages image)

/-! ### Helper lemmas: non-maximum suppression -/

theorem nmsLoop_mem {thr : ℚ} : ∀ {fuel : ℕ} {l : List Detection} {x : Detection},
    x ∈ nmsLoop thr fuel l → x ∈ l := by
  intro fuel
  induction fuel with
  | zero =>
    intro l x hx
    cases l with
    | nil => simp [nmsLoop] at hx
    | cons a t => simp [nmsLoop] at hx
  | succ f ih =>
    intro l x hx
    cases l with
    | nil => simp [nmsLoop] at hx
    | cons best rest =>
      rw [nmsLoop] at hx
      rcases List.mem_cons.mp hx with rfl | hx
      · exact List.mem_cons_self _ _
      · exact List.mem_cons_of_mem _ (List.mem_of_mem_filter (ih hx))

theorem nmsLoop_pairwise (thr : ℚ) : ∀ (fuel : ℕ) (l : List Detection),
    (nmsLoop thr fuel l).Pairwise fun a b => iou a.bbox b.bbox < thr := by
  intro fuel
  induction fuel with
  | zero =>
    intro l
    cases l with
    | nil => simp [nmsLoop]
    | cons a t => simp [nmsLoop]
  | succ f ih =>
    intro l
    cases l with
    | nil => simp [nmsLoop]
    | cons best rest =>
      rw [nmsLoop]
      refine List.pairwise_cons.mpr ⟨?_, ih _⟩
      intro y hy
      have hmem := nmsLoop_mem hy
      have := List.of_mem_filter hmem
      exact of_decide_eq_true this

theorem iou_comm (b1 b2 : Bbox) : iou b1 b2 = iou b2 b1 := by
  unfold iou
  rw [max_comm b1.x b2.x, max_comm b1.y b2.y, min_comm (b1.x + b1.w) (b2.x + b2.w),
    min_comm (b1.y + b1.h) (b2.y + b2.h), add_comm (b1.w * b1.h) (b2.w * b2.h)]

theorem sortByConfDesc_perm (l : List Detection) :
    List.Perm (sortByConfDesc l) l :=
  stableSort_perm _ l

theorem sortByConfDesc_sorted (l : List Detection) :
    (sortByConfDesc l).Pairwise fun a b => (b.confidence ≤ a.confidence : Bool) := by
  refine stableSort_sorted _ ?_ ?_ l
  · intro a b
    rcases le_total b.confidence a.confidence with h | h <;> simp [h]
  · intro a b c hab hbc
    have h1 : b.confidence ≤ a.confidence := of_decide_eq_true hab
    have h2 : c.confidence ≤ b.confidence := of_decide_eq_true hbc
    exact decide_eq_true (h2.trans h1)

theorem detectLoop_mem {cropNonempty : Bbox → Bool} {predict : Bbox → ℕ × ℚ}
    {thr : ℚ} : ∀ {bboxes : List Bbox} {d : Detection},
    d ∈ detectLoop cropNonempty predict thr bboxes →
    thr ≤ d.confidence ∧ d.symbol ≠ "background" := by
  intro bboxes
  induction bboxes with
  | nil =>
    intro d hd
    simp [detectLoop] at hd
  | cons bbox rest ih =>
    intro d hd
    rw [detectLoop] at hd
    by_cases hc : cropNonempty bbox
    · rw [if_pos hc] at hd
      by_cases hconf : thr ≤ (predict bbox).2
      · rw [if_pos hconf] at hd
        by_cases hbg : get_class_name (predict bbox).1 ≠ "background"
        · rw [if_pos hbg] at hd
          rcases List.mem_cons.mp hd with rfl | hd
          · exact ⟨hconf, hbg⟩
          · exact ih hd
        · rw [if_neg hbg] at hd
          exact ih hd
      · rw [if_neg hconf] at hd
        exact ih hd
    · rw [if_neg hc] at hd
      exact ih hd

/-! ### Concrete detections, streams and images used by the closed theorems -/

/-- Chain of three overlapping boxes: `iou nA nB = iou nB nC = 2/3`,
`iou nA nC = 3/7`; confidences `0.9 > 0.85 > 0.8`. -/
def nA : Detection := ⟨"quarter_note", mkRat 9 10, ⟨0, 0, 10, 10⟩, (5, 5)⟩

/-- Middle element of the chain, see `nA`. -/
def nB : Detection := ⟨"quarter_note", mkRat 17 20, ⟨2, 0, 10, 10⟩, (7, 5)⟩

/-- Last element of the chain, see `nA`. -/
def nC : Detection := ⟨"quarter_note", mkRat 4 5, ⟨4, 0, 10, 10⟩, (9, 5)⟩

/-- Scenario C, lower-confidence detection: confidence `0.8`,
`iou nScenA nScenB = 3/5 = 0.6`. -/
def nScenA : Detection := ⟨"quarter_note", mkRat 4 5, ⟨0, 0, 20, 10⟩, (10, 5)⟩

/-- Scenario C, higher-confidence detection: confidence `0.95`. -/
def nScenB : Detection := ⟨"quarter_note", mkRat 19 20, ⟨5, 0, 20, 10⟩, (15, 5)⟩

/-- Low-confidence detection (`0.3`), listed first in the C7 input. -/
def nLow : Detection := ⟨"eighth_note", mkRat 3 10, ⟨0, 0, 5, 5⟩, (2, 2)⟩

/-- High-confidence detection (`0.9`), disjoint box from `nLow`. -/
def nHigh : Detection := ⟨"quarter_note", mkRat 9 10, ⟨40, 0, 5, 5⟩, (42, 2)⟩

/-- A barline detection. -/
def blDet : Detection := ⟨"barline", mkRat 9 10, ⟨50, 0, 2, 40⟩, (51, 20)⟩

/-- A quarter-note detection. -/
def qnDet : Detection := ⟨"quarter_note", mkRat 9 10, ⟨10, 0, 8, 8⟩, (14, 4)⟩

/-- A half-rest detection. -/
def hrDet : Detection := ⟨"half_rest", mkRat 9 10, ⟨60, 0, 8, 8⟩, (64, 4)⟩

/-- A malformed time-signature-shaped symbol: `time_`-prefixed, splits into
exactly two parts `a` and `b`, neither an integer literal. -/
def tabDet : Detection := ⟨"time_a_b", mkRat 9 10, ⟨0, 0, 4, 4⟩, (2, 2)⟩

/-- A `time_3_4` detection. -/
def t34Det : Detection := ⟨"time_3_4", mkRat 9 10, ⟨0, 0, 4, 4⟩, (2, 2)⟩

/-- A `bass_clef` detection. -/
def bcDet : Detection := ⟨"bass_clef", mkRat 9 10, ⟨0, 0, 4, 4⟩, (2, 2)⟩

/-- One-column image with bright rows at `y = 0, 10, 20, 30, 40` and a dark
closing row: five evenly spaced staff lines. -/
def img5 : List (List ℕ) := (List.range 42).map fun i => if i % 10 == 0 then [255] else [0]

/-- One-column image with bright rows at `y = 0, 10, 20, 30` only: a staff
with a missed 5th line. -/
def img4 : List (List ℕ) := (List.range 32).map fun i => if i % 10 == 0 then [255] else [0]

/-! ### Claim C2 -/

/-- C2, counterexample: at IoU threshold `0.5`, on the chain `nA, nB, nC`
the pair `(nB, nC)` has IoU `2/3 > 0.5` and `nB` has the higher confidence,
yet it is `nC` — the lower-confidence member of the pair — that survives
(`nB` was already suppressed by `nA`), refuting "for any pair of detections
whose IoU exceeds the threshold only the higher-confidence one survives". -/
theorem C2_counterexample :
    mkRat 1 2 < iou nB.bbox nC.bbox ∧
    nC.confidence < nB.confidence ∧
    nC ∈ (non_max_suppression [nA, nB, nC] (mkRat 1 2)).1 ∧
    nB ∉ (non_max_suppression [nA, nB, nC] (mkRat 1 2)).1 := by
  decide

/-- C2 (amended): non-max suppression keeps detections greedily in
descending confidence order such that any two kept detections have pairwise
IoU strictly below the threshold; consequently at most one member of any
pair with IoU at or above the threshold survives (though not necessarily
the higher-confidence member, as chained suppression may remove it); and in
Scenario C — two detections with IoU `0.6` over threshold `0.5` and
confidences `0.8` and `0.95` — only the `0.95` detection remains. -/
theorem C2_theorem :
    (∀ (dets : List Detection) (thr : ℚ),
      ((non_max_suppression dets thr).1).Pairwise fun a b => iou a.bbox b.bbox < thr) ∧
    (∀ (dets : List Detection) (thr : ℚ) (a b : Detection),
      a ∈ (non_max_suppression dets thr).1 → b ∈ (non_max_suppression dets thr).1 →
      thr ≤ iou a.bbox b.bbox → a = b) ∧
    (non_max_suppression [nScenA, nScenB] (mkRat 1 2)).1 = [nScenB] := by
  have hpw : ∀ (dets : List Detection) (thr : ℚ),
      ((non_max_suppression dets thr).1).Pairwise fun a b => iou a.bbox b.bbox < thr := by
    intro dets thr
    by_cases h : dets.isEmpty
    · simp [non_max_suppression, h]
    · simp only [non_max_suppression, h, if_neg, Bool.false_eq_true, if_false]
      exact nmsLoop_pairwise thr _ _
  refine ⟨hpw, ?_, by decide⟩
  intro dets thr a b ha hb hiou
  by_contra hne
  have hsymm : Symmetric fun a b : Detection => iou a.bbox b.bbox < thr := by
    intro x y hxy
    rw [iou_comm]
    exact hxy
  have := (hpw dets thr).forall hsymm ha hb hne
  exact absurd hiou (not_le.mpr this)

/-- C2, witness for the hypotheses of `C2_theorem`: applied to the
singleton list `[nA]` at threshold `0.5`, where `nA` is kept and
`iou nA nA = 1 ≥ 0.5`. -/
theorem C2_witness : nA = nA :=
  C2_theorem.2.1 [nA] (mkRat 1 2) nA nA (by decide) (by decide) (by decide)

/-! ### Claim C7 -/

/-- C7, counterexample: calling `non_max_suppression` on `[nLow, nHigh]`
leaves the caller's list holding `[nLow]` — sorted descending and with its
head popped — not the original `[nLow, nHigh]`: the input list IS mutated. -/
theorem C7_counterexample :
    (non_max_suppression [nLow, nHigh] (mkRat 1 2)).2 ≠ [nLow, nHigh] ∧
    (non_max_suppression [nLow, nHigh] (mkRat 1 2)).2 = [nLow] := by
  decide

/-- C7 (amended): `non_max_suppression` returns a new filtered list but
mutates a non-empty input list: after the call the caller's list holds the
input detections sorted by descending confidence with the highest-confidence
element removed — some element `d` of the input is gone, the remainder is a
permutation of the input minus `d`, is in descending confidence order, and
every remaining confidence is bounded by `d`'s.  (An empty input is returned
before the in-place sort and pop and is left unchanged.) -/
theorem C7_theorem (dets : List Detection) (thr : ℚ) (hne : dets ≠ []) :
    ∃ d, d ∈ dets ∧
      List.Perm (d :: (non_max_suppression dets thr).2) dets ∧
      ((non_max_suppression dets thr).2).Pairwise
        (fun a b => b.confidence ≤ a.confidence) ∧
      ∀ x ∈ (non_max_suppression dets thr).2, x.confidence ≤ d.confidence := by
  cases dets with
  | nil => exact absurd rfl hne
  | cons d0 rest =>
    have hperm := sortByConfDesc_perm (d0 :: rest)
    have hsorted := sortByConfDesc_sorted (d0 :: rest)
    have hlen : (sortByConfDesc (d0 :: rest)).length = rest.length + 1 := by
      simpa using hperm.length_eq
    obtain ⟨hd, tl, heq⟩ : ∃ hd tl, sortByConfDesc (d0 :: rest) = hd :: tl := by
      cases hsort : sortByConfDesc (d0 :: rest) with
      | nil => rw [hsort] at hlen; simp at hlen
      | cons a t => exact ⟨a, t, rfl⟩
    have hsnd : (non_max_suppression (d0 :: rest) thr).2 = tl := by
      show (sortByConfDesc (d0 :: rest)).tail = tl
      rw [heq]
      rfl
    rw [heq] at hperm hsorted
    rcases List.pairwise_cons.mp hsorted with ⟨hhd, htl⟩
    refine ⟨hd, ?_, ?_, ?_, ?_⟩
    · exact hperm.mem_iff.mp (List.mem_cons_self hd tl)
    · rw [hsnd]
      exact hperm
    · rw [hsnd]
      exact htl.imp fun h => of_decide_eq_true h
    · rw [hsnd]
      intro x hx
      exact of_decide_eq_true (hhd x hx)

/-- C7, witness: `C7_theorem` applied to the concrete two-element list
`[nLow, nHigh]` at threshold `0.5`. -/
theorem C7_witness :
    ∃ d, d ∈ [nLow, nHigh] ∧
      List.Perm (d :: (non_max_suppression [nLow, nHigh] (mkRat 1 2)).2) [nLow, nHigh] ∧
      ((non_max_suppression [nLow, nHigh] (mkRat 1 2)).2).Pairwise
        (fun a b => b.confidence ≤ a.confidence) ∧
      ∀ x ∈ (non_max_suppression [nLow, nHigh] (mkRat 1 2)).2,
        x.confidence ≤ d.confidence :=
  C7_theorem [nLow, nHigh] (mkRat 1 2) (by decide)

/-! ### Claim C6 -/

/-- C6: every detection returned by `detect_symbols` has confidence at least
the configured threshold and a label different from the reserved
`'background'` label — sub-threshold and background-labelled classifications
never appear in the result (and hence never reach the score). -/
theorem C6_theorem (cropNonempty : Bbox → Bool) (predict : Bbox → ℕ × ℚ)
    (confidence_threshold : ℚ) (bounding_boxes : List Bbox) (d : Detection)
    (hd : d ∈ detect_symbols cropNonempty predict confidence_threshold bounding_boxes) :
    confidence_threshold ≤ d.confidence ∧ d.symbol ≠ "background" := by
  have hmem : d ∈ detectLoop cropNonempty predict confidence_threshold bounding_boxes :=
    (stableSort_perm _ _).mem_iff.mp hd
  exact detectLoop_mem hmem

/-- C6, witness: a classifier oracle that labels the single box
`quarter_note` with confidence `0.9` at threshold `0.5`. -/
theorem C6_witness :
    (mkRat 1 2 : ℚ) ≤ (⟨"quarter_note", mkRat 9 10, ⟨0, 0, 4, 4⟩, (2, 2)⟩ : Detection).confidence ∧
    (⟨"quarter_note", mkRat 9 10, ⟨0, 0, 4, 4⟩, (2, 2)⟩ : Detection).symbol ≠ "background" :=
  C6_theorem (fun _ => true) (fun _ => (5, mkRat 9 10)) (mkRat 1 2) [⟨0, 0, 4, 4⟩]
    ⟨"quarter_note", mkRat 9 10, ⟨0, 0, 4, 4⟩, (2, 2)⟩ (by decide)

/-! ### Helper lemmas: the two passes of `symbols_to_score` -/

theorem pass1_measures : ∀ {dets : List Detection} {sc r : MusicScore},
    pass1 dets sc = .ok r → r.measures = sc.measures := by
  intro dets
  induction dets with
  | nil =>
    intro sc r h
    rw [pass1] at h
    cases h
    rfl
  | cons det rest ih =>
    intro sc r h
    rw [pass1] at h
    by_cases h1 : pyEndsWith det.symbol "_clef"
    · rw [if_pos h1] at h
      have := ih h
      simpa using this
    · rw [if_neg h1] at h
      by_cases h2 : pyStartsWith det.symbol "time_"
      · rw [if_pos h2] at h
        split at h
        · split at h
          · have := ih h
            simpa using this
          · cases h
        · have := ih h
          simpa using this
      · rw [if_neg h2] at h
        have := ih h
        simpa using this

theorem pass1_clef : ∀ {dets : List Detection} {sc r : MusicScore},
    pass1 dets sc = .ok r → r.clef = (lastClefSpec dets).getD sc.clef := by
  intro dets
  induction dets with
  | nil =>
    intro sc r h
    rw [pass1] at h
    cases h
    rfl
  | cons det rest ih =>
    intro sc r h
    rw [pass1] at h
    rw [lastClefSpec]
    by_cases h1 : pyEndsWith det.symbol "_clef"
    · rw [if_pos h1] at h
      have := ih h
      cases hlc : lastClefSpec rest with
      | none => simpa [hlc, h1] using this
      | some c => simpa [hlc] using this
    · rw [if_neg h1] at h
      have hkeep : ∀ sc' : MusicScore, pass1 rest sc' = .ok r → sc'.clef = sc.clef →
          r.clef = (match lastClefSpec rest with
            | some c => some c
            | none => if pyEndsWith det.symbol "_clef" then some (clef_of det.symbol)
                      else none).getD sc.clef := by
        intro sc' h' he
        have := ih h'
        cases hlc : lastClefSpec rest with
        | none => simpa [hlc, h1, he] using this
        | some c => simpa [hlc] using this
      by_cases h2 : pyStartsWith det.symbol "time_"
      · rw [if_pos h2] at h
        split at h
        · split at h
          · exact hkeep _ h rfl
          · cases h
        · exact hkeep _ h rfl
      · rw [if_neg h2] at h
        exact hkeep _ h rfl

theorem pass1_time : ∀ {dets : List Detection} {sc r : MusicScore},
    pass1 dets sc = .ok r →
    r.time_signature = (lastTimeSpec dets).getD sc.time_signature := by
  intro dets
  induction dets with
  | nil =>
    intro sc r h
    rw [pass1] at h
    cases h
    rfl
  | cons det rest ih =>
    intro sc r h
    rw [pass1] at h
    rw [lastTimeSpec]
    by_cases h1 : pyEndsWith det.symbol "_clef"
    · rw [if_pos h1] at h
      have := ih h
      have hto : timeOf det.symbol = none := by simp [timeOf, h1]
      cases hlc : lastTimeSpec rest with
      | none => simpa [hlc, hto] using this
      | some t => simpa [hlc] using this
    · rw [if_neg h1] at h
      by_cases h2 : pyStartsWith det.symbol "time_"
      · rw [if_pos h2] at h
        cases hsplit : pySplit (pyReplace det.symbol "time_" "") "_" with
        | nil =>
          simp only [hsplit] at h
          have := ih h
          have hto : timeOf det.symbol = none := by simp [timeOf, h1, h2, hsplit]
          cases hlc : lastTimeSpec rest with
          | none => simpa [hlc, hto] using this
          | some t => simpa [hlc] using this
        | cons p1 ps =>
          cases ps with
          | nil =>
            simp only [hsplit] at h
            have := ih h
            have hto : timeOf det.symbol = none := by simp [timeOf, h1, h2, hsplit]
            cases hlc : lastTimeSpec rest with
            | none => simpa [hlc, hto] using this
            | some t => simpa [hlc] using this
          | cons p2 ps2 =>
            cases ps2 with
            | nil =>
              cases hi1 : pyInt? p1 with
              | none =>
                simp only [hsplit, hi1] at h
                cases h
              | some n =>
                cases hi2 : pyInt? p2 with
                | none =>
                  simp only [hsplit, hi1, hi2] at h
                  cases h
                | some m =>
                  simp only [hsplit, hi1, hi2] at h
                  have := ih h
                  have hto : timeOf det.symbol = some (n, m) := by
                    simp [timeOf, h1, h2, hsplit, hi1, hi2]
                  cases hlc : lastTimeSpec rest with
                  | none => simpa [hlc, hto] using this
                  | some t => simpa [hlc] using this
            | cons p3 ps3 =>
              simp only [hsplit] at h
              have := ih h
              have hto : timeOf det.symbol = none := by simp [timeOf, h1, h2, hsplit]
              cases hlc : lastTimeSpec rest with
              | none => simpa [hlc, hto] using this
              | some t => simpa [hlc] using this
      · rw [if_neg h2] at h
        have := ih h
        have hto : timeOf det.symbol = none := by simp [timeOf, h1, h2]
        cases hlc : lastTimeSpec rest with
        | none => simpa [hlc, hto] using this
        | some t => simpa [hlc] using this

theorem pm_header (sp : List (List ℤ)) : ∀ (dets : List Detection)
    (cur : List Entry) (score : MusicScore),
    (process_measures sp dets cur score).clef = score.clef ∧
    (process_measures sp dets cur score).time_signature = score.time_signature ∧
    (process_measures sp dets cur score).key_signature = score.key_signature ∧
    (process_measures sp dets cur score).tempo = score.tempo := by
  intro dets
  induction dets with
  | nil =>
    intro cur score
    rw [process_measures]
    split <;> simp
  | cons det rest ih =>
    intro cur score
    rw [process_measures]
    by_cases hn : isNoteSym det.symbol
    · rw [if_pos hn]
      exact ih _ _
    · rw [if_neg hn]
      by_cases hr : isRestSym det.symbol
      · rw [if_pos hr]
        exact ih _ _
      · rw [if_neg hr]
        by_cases hb : isBarline det.symbol
        · rw [if_pos hb]
          by_cases hcur : cur.isEmpty
          · rw [if_pos hcur]
            exact ih _ _
          · rw [if_neg hcur]
            simpa using ih [] { score with measures := score.measures ++ [cur] }
        · rw [if_neg hb]
          exact ih _ _

theorem isEmpty_append_singleton {α : Type} (l : List α) (x : α) :
    (l ++ [x]).isEmpty = false := by
  cases l <;> rfl

theorem pm_length (sp : List (List ℤ)) : ∀ (dets : List Detection)
    (cur : List Entry) (score : MusicScore),
    (process_measures sp dets cur score).measures.length =
      score.measures.length + measure_count_from dets (!cur.isEmpty) := by
  intro dets
  induction dets with
  | nil =>
    intro cur score
    rw [process_measures, measure_count_from]
    by_cases hcur : cur.isEmpty
    · simp [hcur]
    · simp [hcur]
  | cons det rest ih =>
    intro cur score
    rw [process_measures, measure_count_from]
    by_cases hn : isNoteSym det.symbol
    · rw [if_pos hn]
      have : (isNoteSym det.symbol || isRestSym det.symbol) = true := by simp [hn]
      rw [if_pos this, ih, isEmpty_append_singleton]
      rfl
    · rw [if_neg hn]
      by_cases hr : isRestSym det.symbol
      · rw [if_pos hr]
        have : (isNoteSym det.symbol || isRestSym det.symbol) = true := by simp [hr]
        rw [if_pos this, ih, isEmpty_append_singleton]
        rfl
      · rw [if_neg hr]
        have hnr : (isNoteSym det.symbol || isRestSym det.symbol) = false := by
          simp [hn, hr]
        rw [hnr]
        simp only [Bool.false_eq_true, if_false]
        by_cases hb : isBarline det.symbol
        · rw [if_pos hb, if_pos hb]
          by_cases hcur : cur.isEmpty
          · rw [if_pos hcur, ih]
            simp [hcur]
          · rw [if_neg hcur, ih]
            have : (!cur.isEmpty) = true := by simp [hcur]
            rw [this]
            simp only [List.isEmpty_nil, Bool.not_true, if_true]
            simp [List.length_append]
            omega
        · rw [if_neg hb, if_neg hb, ih]
  -- the final `else` keeps both the pending measure and the pending flag

theorem pm_nonempty (sp : List (List ℤ)) : ∀ (dets : List Detection)
    (cur : List Entry) (score : MusicScore),
    (∀ m ∈ score.measures, m ≠ []) →
    ∀ m ∈ (process_measures sp dets cur score).measures, m ≠ [] := by
  intro dets
  induction dets with
  | nil =>
    intro cur score hsc m hm
    rw [process_measures] at hm
    by_cases hcur : cur.isEmpty
    · rw [if_pos hcur] at hm
      exact hsc m hm
    · rw [if_neg hcur] at hm
      rcases List.mem_append.mp hm with hm | hm
      · exact hsc m hm
      · have : m = cur := by simpa using hm
        subst this
        simpa [List.isEmpty_iff] using hcur
  | cons det rest ih =>
    intro cur score hsc m hm
    rw [process_measures] at hm
    by_cases hn : isNoteSym det.symbol
    · rw [if_pos hn] at hm
      exact ih _ _ hsc m hm
    · rw [if_neg hn] at hm
      by_cases hr : isRestSym det.symbol
      · rw [if_pos hr] at hm
        exact ih _ _ hsc m hm
      · rw [if_neg hr] at hm
        by_cases hb : isBarline det.symbol
        · rw [if_pos hb] at hm
          by_cases hcur : cur.isEmpty
          · rw [if_pos hcur] at hm
            exact ih _ _ hsc m hm
          · rw [if_neg hcur] at hm
            refine ih _ _ ?_ m hm
            intro m' hm'
            rcases List.mem_append.mp hm' with hm' | hm'
            · exact hsc m' hm'
            · have : m' = cur := by simpa using hm'
              subst this
              simpa [List.isEmpty_iff] using hcur
        · rw [if_neg hb] at hm
          exact ih _ _ hsc m hm

theorem mcf_le_barline : ∀ (dets : List Detection) (p : Bool),
    measure_count_from dets p ≤ barline_count dets + 1 := by
  intro dets
  induction dets with
  | nil =>
    intro p
    cases p <;> simp [measure_count_from, barline_count]
  | cons det rest ih =>
    intro p
    rw [measure_count_from]
    have hbc : barline_count (det :: rest) =
        (if isBarline det.symbol then 1 else 0) + barline_count rest := by
      simp [barline_count, List.filter_cons]
      split <;> simp [Nat.add_comm]
    by_cases hnr : (isNoteSym det.symbol || isRestSym det.symbol) = true
    · rw [if_pos hnr, hbc]
      have := ih true
      omega
    · rw [if_neg hnr]
      by_cases hb : isBarline det.symbol
      · rw [if_pos hb, hbc, if_pos hb]
        have h1 := ih false
        cases p <;> simp <;> omega
      · rw [if_neg hb, hbc, if_neg hb]
        have := ih p
        omega

/-! ### Claim C1 -/

/-- C1, counterexample: a stream consisting of a single barline detection.
The stream ends on a barline, so the claim predicts one (empty) measure; the
code appends a measure at a barline only `if current_measure:` is non-empty,
so the returned score has zero measures. -/
theorem C1_counterexample :
    symbols_to_score [blDet] [] = .ok MusicScore.init ∧
    isBarline blDet.symbol = true ∧
    barline_count [blDet] = 1 ∧
    MusicScore.init.measures.length ≠ barline_count [blDet] := by
  decide

/-- C1 (amended): a barline or double-barline detection closes the pending
measure ONLY when it is non-empty (empty pending measures are silently
dropped), so every measure of the returned score is non-empty and the number
of measures equals the number of barline detections at which the pending
measure was non-empty, plus one if the trailing pending measure is non-empty
(`measure_count`); in particular it never exceeds the barline count plus
one. -/
theorem C1_theorem (dets : List Detection) (sp : List (List ℤ)) (s : MusicScore)
    (h : symbols_to_score dets sp = .ok s) :
    (∀ m ∈ s.measures, m ≠ []) ∧
    s.measures.length = measure_count dets ∧
    measure_count dets ≤ barline_count dets + 1 := by
  rw [symbols_to_score] at h
  cases hp : pass1 dets MusicScore.init with
  | error e => rw [hp] at h; cases h
  | ok sc1 =>
    rw [hp] at h
    cases h
    have hm : sc1.measures = [] := pass1_measures hp
    refine ⟨?_, ?_, mcf_le_barline dets false⟩
    · refine pm_nonempty sp dets [] sc1 ?_
      rw [hm]
      intro m hm'
      cases hm'
    · rw [pm_length sp dets [] sc1, hm]
      simp [measure_count]

/-- C1, witness: the stream note–barline–barline–rest yields the two
non-empty measures `[[note]], [[rest]]`; the second barline finds an empty
pending measure and adds nothing. -/
theorem C1_witness :
    (∀ m ∈ (⟨[[Entry.note "C4" (mkRat 1 1) (14, 4)], [Entry.rest (mkRat 2 1) (64, 4)]],
        (4, 4), 0, "treble", 120⟩ : MusicScore).measures, m ≠ []) ∧
    (⟨[[Entry.note "C4" (mkRat 1 1) (14, 4)], [Entry.rest (mkRat 2 1) (64, 4)]],
        (4, 4), 0, "treble", 120⟩ : MusicScore).measures.length =
      measure_count [qnDet, blDet, blDet, hrDet] ∧
    measure_count [qnDet, blDet, blDet, hrDet] ≤ barline_count [qnDet, blDet, blDet, hrDet] + 1 :=
  C1_theorem [qnDet, blDet, blDet, hrDet] []
    ⟨[[Entry.note "C4" (mkRat 1 1) (14, 4)], [Entry.rest (mkRat 2 1) (64, 4)]],
      (4, 4), 0, "treble", 120⟩ (by decide)

/-! ### Claim C8 -/

/-- C8: score reconstruction is deterministic and free of hidden mutable
state across calls: the returned value does not depend on the converter's
`current_score` attribute, and a second call on the converter state left by
a successful first call returns the structurally identical score (and
state). -/
theorem C8_theorem :
    (∀ (st1 st2 : MusicScore) (dets : List Detection) (sp : List (List ℤ)),
      symbols_to_score_method st1 dets sp = symbols_to_score_method st2 dets sp) ∧
    (∀ (st : MusicScore) (dets : List Detection) (sp : List (List ℤ))
      (s c : MusicScore),
      symbols_to_score_method st dets sp = .ok (s, c) →
      symbols_to_score_method c dets sp = .ok (s, c)) := by
  constructor
  · intro st1 st2 dets sp
    rfl
  · intro st dets sp s c h
    exact h

/-- C8, witness: a first call on the freshly initialised converter returns
the one-measure score; the repeated call on the resulting state returns the
identical value. -/
theorem C8_witness :
    symbols_to_score_method
      ⟨[[Entry.note "C4" (mkRat 1 1) (14, 4)]], (4, 4), 0, "treble", 120⟩
      [qnDet] [] =
    .ok (⟨[[Entry.note "C4" (mkRat 1 1) (14, 4)]], (4, 4), 0, "treble", 120⟩,
      ⟨[[Entry.note "C4" (mkRat 1 1) (14, 4)]], (4, 4), 0, "treble", 120⟩) :=
  C8_theorem.2 MusicScore.init [qnDet] []
    ⟨[[Entry.note "C4" (mkRat 1 1) (14, 4)]], (4, 4), 0, "treble", 120⟩
    ⟨[[Entry.note "C4" (mkRat 1 1) (14, 4)]], (4, 4), 0, "treble", 120⟩ (by decide)

/-! ### Claim C10 -/

/-- C10, counterexample: on the stream holding only the symbol `time_a_b` —
which is NOT a well-formed `time_N_M` detection, so the claim says the
returned score carries the default `(4, 4)` — `symbols_to_score` raises
`ValueError` from `int('a')` instead of returning any score. -/
theorem C10_counterexample :
    symbols_to_score [tabDet] [] =
      .error ⟨"ValueError", "invalid literal for int() with base 10"⟩ ∧
    lastTimeSpec [tabDet] = none ∧
    (∀ s : MusicScore, symbols_to_score [tabDet] [] ≠ .ok s) := by
  refine ⟨by decide, by decide, ?_⟩
  intro s h
  rw [show symbols_to_score [tabDet] [] =
    .error ⟨"ValueError", "invalid literal for int() with base 10"⟩ from by decide] at h
  cases h

/-- C10 (amended): whenever `symbols_to_score` returns a score (that is, no
`time_`-prefixed symbol with exactly two non-integer parts made `int()`
raise `ValueError`), the clef and time signature are consumed in a first
pass over the entire stream before any note, rest or barline is processed:
the returned clef is that of the last `_clef`-suffixed detection (default
`treble`), and the time signature that of the last well-formed `time_N_M`
detection (default `(4, 4)`), regardless of where those symbols occur
relative to notes and measures. -/
theorem C10_theorem (dets : List Detection) (sp : List (List ℤ)) (s : MusicScore)
    (h : symbols_to_score dets sp = .ok s) :
    s.clef = (lastClefSpec dets).getD "treble" ∧
    s.time_signature = (lastTimeSpec dets).getD (4, 4) := by
  rw [symbols_to_score] at h
  cases hp : pass1 dets MusicScore.init with
  | error e => rw [hp] at h; cases h
  | ok sc1 =>
    rw [hp] at h
    cases h
    obtain ⟨hc, ht, -, -⟩ := pm_header sp dets [] sc1
    constructor
    · rw [hc, pass1_clef hp]
      rfl
    · rw [ht, pass1_time hp]
      rfl

/-- C10, witness: in the stream note, barline, `time_3_4`, `bass_clef` the
clef and time-signature symbols appear after notes and measure boundaries,
yet the returned score carries clef `bass` and time signature `(3, 4)`. -/
theorem C10_witness :
    (⟨[[Entry.note "C4" (mkRat 1 1) (14, 4)]], (3, 4), 0, "bass", 120⟩ : MusicScore).clef =
      (lastClefSpec [qnDet, blDet, t34Det, bcDet]).getD "treble" ∧
    (⟨[[Entry.note "C4" (mkRat 1 1) (14, 4)]], (3, 4), 0, "bass", 120⟩
        : MusicScore).time_signature =
      (lastTimeSpec [qnDet, blDet, t34Det, bcDet]).getD (4, 4) :=
  C10_theorem [qnDet, blDet, t34Det, bcDet] []
    ⟨[[Entry.note "C4" (mkRat 1 1) (14, 4)]], (3, 4), 0, "bass", 120⟩ (by decide)

/-! ### Claim C9 -/

/-- C9, counterexample: for an unreadable image the loader raises an
exception of class `ValueError` (line 34 of `image_processor.py`), not one
named `ImageLoadError` — no class of that name exists anywhere in the
repository. -/
theorem C9_counterexample :
    load_image (fun _ => none) "score.png" =
      .error ⟨"ValueError", "Could not load image from " ++ "score.png"⟩ ∧
    ("ValueError" : String) ≠ "ImageLoadError" := by
  decide

/-- C9 (amended): for every image path whose image cannot be read, loading
raises `ValueError` (message `Could not load image from {path}`) before any
pipeline stage runs — the outcome is the same hard error whatever the
remaining stages would compute, with no graceful fallback and no partial
result. -/
theorem C9_theorem (imread : String → Option (List (List ℕ)))
    (stages stages' : List (List ℕ) → List (List ℕ)) (image_path : String)
    (h : imread image_path = none) :
    preprocess imread stages image_path =
      .error ⟨"ValueError", "Could not load image from " ++ image_path⟩ ∧
    preprocess imread stages image_path = preprocess imread stages' image_path := by
  unfold preprocess load_image
  rw [h]
  exact ⟨rfl, rfl⟩

/-- C9, witness: `C9_theorem` at an oracle on which every read fails, with
two distinct stage pipelines. -/
theorem C9_witness :
    preprocess (fun _ => none) id "score.png" =
      .error ⟨"ValueError", "Could not load image from " ++ "score.png"⟩ ∧
    preprocess (fun _ => none) id "score.png" =
      preprocess (fun _ => none) (fun _ => [[0]]) "score.png" :=
  C9_theorem (fun _ => none) id (fun _ => [[0]]) "score.png" rfl

/-! ### Helper lemmas: the closest-grid-position loop -/

theorem scanMin_snd_le (y : ℚ) : ∀ (l : List ℚ) (i : ℕ) (acc : ℕ × ℚ),
    (scanMin y l i acc).2 ≤ acc.2 := by
  intro l
  induction l with
  | nil =>
    intro i acc
    rw [scanMin]
  | cons p rest ih =>
    intro i acc
    rw [scanMin]
    by_cases h : |qsub y p| < acc.2
    · rw [if_pos h]
      exact (ih _ _).trans h.le
    · rw [if_neg h]
      exact ih _ _

theorem scanMin_le_mem (y : ℚ) : ∀ (l : List ℚ) (i : ℕ) (acc : ℕ × ℚ) (q : ℚ),
    q ∈ l → (scanMin y l i acc).2 ≤ |qsub y q| := by
  intro l
  induction l with
  | nil =>
    intro i acc q hq
    cases hq
  | cons p rest ih =>
    intro i acc q hq
    rw [scanMin]
    rcases List.mem_cons.mp hq with rfl | hq
    · by_cases h : |qsub y q| < acc.2
      · rw [if_pos h]
        exact scanMin_snd_le y rest (i + 1) (i, |qsub y q|)
      · rw [if_neg h]
        exact (scanMin_snd_le y rest (i + 1) acc).trans (not_lt.mp h)
    · by_cases h : |qsub y p| < acc.2
      · rw [if_pos h]
        exact ih _ _ _ hq
      · rw [if_neg h]
        exact ih _ _ _ hq

theorem scanMin_result (y : ℚ) : ∀ (l : List ℚ) (i : ℕ) (acc : ℕ × ℚ),
    scanMin y l i acc = acc ∨
    ∃ k, k < l.length ∧ (scanMin y l i acc).1 = i + k ∧
      (scanMin y l i acc).2 = |qsub y (l.getD k 0)| := by
  intro l
  induction l with
  | nil =>
    intro i acc
    left
    rw [scanMin]
  | cons p rest ih =>
    intro i acc
    rw [scanMin]
    by_cases h : |qsub y p| < acc.2
    · rw [if_pos h]
      right
      rcases ih (i + 1) (i, |qsub y p|) with heq | ⟨k, hk, h1, h2⟩
      · exact ⟨0, by simp, by rw [heq]; rfl, by rw [heq]; rfl⟩
      · refine ⟨k + 1, by simpa using Nat.succ_lt_succ hk, ?_, ?_⟩
        · rw [h1]
          omega
        · rw [h2]
          rfl
    · rw [if_neg h]
      rcases ih (i + 1) acc with heq | ⟨k, hk, h1, h2⟩
      · left
        exact heq
      · right
        refine ⟨k + 1, by simpa using Nat.succ_lt_succ hk, ?_, ?_⟩
        · rw [h1]
          omega
        · rw [h2]
          rfl

theorem closest_idx_min (y : ℚ) (ps : List ℚ) (hne : ps ≠ []) :
    closest_idx y ps < ps.length ∧
    ∀ q ∈ ps, |qsub y (ps.getD (closest_idx y ps) 0)| ≤ |qsub y q| := by
  cases ps with
  | nil => exact absurd rfl hne
  | cons p rest =>
    rw [closest_idx]
    rcases scanMin_result y (p :: rest) 0 (0, |qsub y p|) with heq | ⟨k, hk, h1, h2⟩
    · rw [heq]
      refine ⟨by simp, ?_⟩
      intro q hq
      have := scanMin_le_mem y (p :: rest) 0 (0, |qsub y p|) q hq
      rw [heq] at this
      simpa using this
    · rw [h1]
      refine ⟨by simpa using hk, ?_⟩
      intro q hq
      have := scanMin_le_mem y (p :: rest) 0 (0, |qsub y p|) q hq
      have hg : (p :: rest).getD (0 + k) 0 = (p :: rest).getD k 0 := by
        rw [Nat.zero_add]
      rw [hg, ← h2]
      exact this

theorem line_positions_ne_nil {g : List ℤ} (hne : g ≠ []) :
    line_positions g ≠ [] := by
  cases g with
  | nil => exact absurd rfl hne
  | cons a t =>
    cases t with
    | nil => simp [line_positions]
    | cons b t2 => simp [line_positions]

/-! ### Claim C3 -/

/-- C3, counterexample: with two staff groups at `y = 0…40` and
`y = 100…140` and a note centred at `y = 120` — dead centre of the SECOND
staff — the code estimates the pitch from the FIRST staff group
(`staff_positions[0]`), giving `E4`, whereas the spec's nearest-staff rule
(embodied by `estimate_pitch_nearest`) gives `B4`. -/
theorem C3_counterexample :
    estimate_pitch 120 [[0, 10, 20, 30, 40], [100, 110, 120, 130, 140]] = "E4" ∧
    estimate_pitch_nearest 120 [[0, 10, 20, 30, 40], [100, 110, 120, 130, 140]] = "B4" ∧
    ("E4" : String) ≠ "B4" := by
  decide

/-- C3 (amended): pitch is computed from the vertical center of the bounding
box relative to the FIRST staff group, not the nearest one: the result never
depends on the later staff groups; when `staff_positions` is empty the fixed
fallback `C4` is returned and no exception is raised; and when the first
group has at least 5 lines the result is the treble-table pitch
(`F5 … C4`, with `C4` fallback past the table) at a grid index whose
line/half-line position is closest to the vertical center among all grid
positions of that first staff. -/
theorem C3_theorem :
    (∀ y : ℤ, estimate_pitch y [] = "C4") ∧
    (∀ (y : ℤ) (g : List ℤ) (gs gs' : List (List ℤ)),
      estimate_pitch y (g :: gs) = estimate_pitch y (g :: gs')) ∧
    (∀ (y : ℤ) (g : List ℤ) (gs : List (List ℤ)), 5 ≤ g.length →
      ∃ i, i < (line_positions g).length ∧
        estimate_pitch y (g :: gs) = treble_pitches.getD i "C4" ∧
        ∀ q ∈ line_positions g,
          |((y : ℚ)) - (line_positions g).getD i 0| ≤ |((y : ℚ)) - q|) := by
  refine ⟨fun y => rfl, fun y g gs gs' => rfl, ?_⟩
  intro y g gs h5
  have hne : g ≠ [] := by
    intro h
    subst h
    simp at h5
  have hie : g.isEmpty = false := by
    cases g with
    | nil => exact absurd rfl hne
    | cons a t => rfl
  have hnl : ¬ (g.length < 5) := not_lt.mpr h5
  have hlp := line_positions_ne_nil hne
  obtain ⟨hidx, hmin⟩ := closest_idx_min (qofInt y) (line_positions g) hlp
  refine ⟨closest_idx (qofInt y) (line_positions g), hidx, ?_, ?_⟩
  · show (match g :: gs with
      | [] => "C4"
      | staff :: _ =>
        if staff.isEmpty then "C4"
        else if staff.length < 5 then "C4"
        else
          let lp := line_positions staff
          let ci := closest_idx (qofInt y) lp
          if ci < treble_pitches.length then treble_pitches.getD ci "C4"
          else "C4") = _
    simp only [hie, Bool.false_eq_true, if_false, hnl]
    by_cases hlt : closest_idx (qofInt y) (line_positions g) < treble_pitches.length
    · simp [hlt]
    · rw [if_neg hlt, List.getD_eq_default]
      exact not_lt.mp hlt
  · intro q hq
    have := hmin q hq
    simpa [qsub_eq, qofInt_eq] using this

/-- C3, witness: on the single staff `[0, 10, 20, 30, 40]` and vertical
center `7`, `C3_theorem` yields a closest-grid index realising the pitch,
here the half-line at `5` (index 1, pitch `E5`). -/
theorem C3_witness :
    ∃ i, i < (line_positions [0, 10, 20, 30, 40]).length ∧
      estimate_pitch 7 [[0, 10, 20, 30, 40]] = treble_pitches.getD i "C4" ∧
      ∀ q ∈ line_positions [0, 10, 20, 30, 40],
        |((7 : ℤ) : ℚ) - (line_positions [0, 10, 20, 30, 40]).getD i 0| ≤
          |((7 : ℤ) : ℚ) - q| :=
  C3_theorem.2.2 7 [0, 10, 20, 30, 40] [] (by decide)

/-! ### Helper lemmas: staff-group validation -/

theorem mkRat_half : (mkRat 1 2 : ℚ) = 1 / 2 := by
  rw [Rat.mkRat_eq_divInt, Rat.divInt_eq_div]
  norm_num

theorem validate_spec {g : List ℤ} (hv : validate_group g = true) :
    g.length = 5 ∧
    ∀ s ∈ spacings g, |(s : ℚ) - avg_spacing g| < avg_spacing g / 2 := by
  rw [validate_group, Bool.and_eq_true] at hv
  obtain ⟨h1, h2⟩ := hv
  refine ⟨by simpa using h1, ?_⟩
  intro s hs
  have := of_decide_eq_true (List.all_eq_true.mp h2 s hs)
  rw [qsub_eq, qofInt_eq, qmul_eq, mkRat_half] at this
  calc |(s : ℚ) - avg_spacing g| < avg_spacing g * (1 / 2) := this
    _ = avg_spacing g / 2 := by ring

theorem spacings_cons (a b : ℤ) (t : List ℤ) :
    spacings (a :: b :: t) = (b - a) :: spacings (b :: t) := rfl

theorem spacings_pos_chain : ∀ {g : List ℤ},
    (∀ s ∈ spacings g, 0 < s) → g.Chain' (· < ·) := by
  intro g
  induction g with
  | nil =>
    intro _
    exact List.chain'_nil
  | cons a t ih =>
    intro h
    cases t with
    | nil => simp
    | cons b t2 =>
      rw [List.chain'_cons]
      refine ⟨?_, ih ?_⟩
      · have := h (b - a) (by rw [spacings_cons]; exact List.mem_cons_self _ _)
        omega
      · intro s hs
        exact h s (by rw [spacings_cons]; exact List.mem_cons_of_mem _ hs)

theorem validate_avg_pos {g : List ℤ}
    (hdev : ∀ s ∈ spacings g, |(s : ℚ) - avg_spacing g| < avg_spacing g / 2)
    (hne : spacings g ≠ []) :
    ∀ s ∈ spacings g, 0 < s := by
  obtain ⟨s0, hs0⟩ := List.exists_mem_of_ne_nil _ hne
  have h0 := hdev s0 hs0
  have havg : 0 < avg_spacing g := by
    have := abs_nonneg ((s0 : ℚ) - avg_spacing g)
    linarith
  intro s hs
  have h1 := hdev s hs
  rcases abs_lt.mp h1 with ⟨h2, h3⟩
  have : (0 : ℚ) < (s : ℚ) := by linarith
  exact_mod_cast this

/-! ### Claim C4 -/

/-- C4: every staff group returned by `find_staff_positions` has exactly 5
line positions, strictly increasing, with each of the four inter-line
spacings deviating from the group's average spacing by at most 50% of that
average (the code enforces the strict bound `< avg * 0.5`, which implies the
claimed `≤`; the bound also forces every spacing above half the average and
hence positive, which yields the strict increase). -/
theorem C4_theorem (staff_space_height : ℤ) (image : List (List ℕ))
    (groups : List (List ℤ))
    (h : find_staff_positions staff_space_height image = .ok groups) :
    ∀ g ∈ groups, g.length = 5 ∧ g.Chain' (· < ·) ∧
      ∀ s ∈ spacings g, |(s : ℚ) - avg_spacing g| ≤ avg_spacing g / 2 := by
  unfold find_staff_positions at h
  dsimp only at h
  split at h
  · cases h
  · cases h
    intro g hg
    have hv : validate_group g = true := List.of_mem_filter hg
    obtain ⟨hlen, hdev⟩ := validate_spec hv
    have hsne : spacings g ≠ [] := by
      intro hnil
      have : (spacings g).length = 0 := by rw [hnil]; rfl
      rw [spacings] at this
      cases g with
      | nil => cases hlen
      | cons a t =>
        cases t with
        | nil => cases hlen
        | cons b t2 => simp [List.zip_cons_cons] at this
    exact ⟨hlen, spacings_pos_chain (validate_avg_pos hdev hsne),
      fun s hs => (hdev s hs).le⟩

set_option maxRecDepth 100000 in
/-- C4, witness: an image with bright rows at `y = 0, 10, 20, 30, 40`
produces the single validated group `[0, 10, 20, 30, 40]`, which satisfies
all three invariants. -/
theorem C4_witness :
    ([0, 10, 20, 30, 40] : List ℤ).length = 5 ∧
    List.Chain' (· < ·) ([0, 10, 20, 30, 40] : List ℤ) ∧
    ∀ s ∈ spacings [0, 10, 20, 30, 40],
      |(s : ℚ) - avg_spacing [0, 10, 20, 30, 40]| ≤ avg_spacing [0, 10, 20, 30, 40] / 2 :=
  C4_theorem 10 img5 [[0, 10, 20, 30, 40]] (by decide) [0, 10, 20, 30, 40] (by decide)

/-! ### Claim C5 -/

set_option maxRecDepth 100000 in
/-- C5: a 4-member line group `[0, 10, 20, 30]` — three spacings of 10, so
one average-spacing interval past the last member is `30 + 10 = 40` — is
repaired by the code to `[0, 10, 20, 30, 37]`: the source divides the
group's span by 4 (`avg_spacing = (group[-1] - group[0]) / 4 = 7.5`, i.e.
0.75 × the actual average spacing) and appends `int(30 + 7.5) = 37`, not
`40`; the full detector run on an image with lines at `y = 0, 10, 20, 30`
returns this group, which then also passes validation. -/
theorem C5_theorem :
    find_staff_positions 10 img4 = .ok [[0, 10, 20, 30, 37]] ∧
    repair4 [0, 10, 20, 30] = [0, 10, 20, 30, 37] ∧
    (30 + (30 - 0) / 3 : ℤ) = 40 ∧
    (37 : ℤ) ≠ 40 := by
  decide

end OMR
